import Mathlib

/-!
Verification of the rendering core of the `codegen-rs` source-assembly library.

The development shallowly embeds the source files `scope.rs`, `license.rs`,
`comment.rs` and `consts.rs`.  Each Rust renderer is translated into a pure
function that produces a `WProg`, a finite program of writes against the
text sink; `WProg.run` executes such a program against a sink that may fail
(modelling `fmt::Result` propagation through the `?` operator and the
dropped results of `License::fmt` / `Docs::fmt` in `Scope::fmt`), and
`WProg.flat` gives the text produced by a run in which no write fails.

The files `formatter.rs`, `import.rs`, `module.rs`, `docs.rs` and the item
container `item.rs` of the repository are not available; those pieces are
modelled from the specification and are marked as such in their doc
comments.  Everything else is translated from the Rust source.
-/

set_option autoImplicit false

namespace Codegen

/-- Auxiliary splitter for `rlines`: splits a character list at every
newline character, keeping the segments in order. -/
def splitNlAux : List Char → List Char → List (List Char)
  | [], acc => [acc.reverse]
  | c :: rest, acc =>
    if c = '\n' then acc.reverse :: splitNlAux rest [] else splitNlAux rest (c :: acc)

/-- Model of Rust's `str::lines()`: split at `'\n'` and drop a final empty
segment produced by a trailing newline.  (`\r\n` terminators do not occur in
any text handled by this development, so carriage returns need no special
treatment.) -/
def rlines (s : String) : List String :=
  let parts := splitNlAux s.data []
  let parts := if parts.getLast? = some [] then parts.dropLast else parts
  parts.map String.mk

/-- Modelled from the spec: `formatter.rs` is not under `src/`.  The
`Formatter` wraps a mutable text buffer whose only failure mode is a failure
of the underlying text-writing primitive (spec section 4.1 and section 7).
`out` is the buffer contents, `failAt` makes the `failAt`-th subsequent
write call fail (a `none` value models an infallible sink such as the
`String` used by `impl Display for Scope`), and `failed` records whether
some write call has failed.  The indentation counter is elided: every
rendering step settled in this development runs at indentation depth zero,
where the indent prefix is empty. -/
structure Fmt where
  out : String
  failAt : Option Nat
  failed : Bool

/-- One call of the underlying text-writing primitive: appends the text on
success; on failure appends nothing, records the failure and reports it. -/
def Fmt.write (f : Fmt) (t : String) : Fmt × Bool :=
  match f.failAt with
  | none => ({ f with out := f.out ++ t }, true)
  | some 0 => ({ f with failAt := none, failed := true }, false)
  | some (n + 1) => ({ f with out := f.out ++ t, failAt := some n }, true)

/-- A render pass as a finite program of sink writes.  `seq` is the `?`
sequencing of two `fmt::Result` computations, and `ignoreErr` models a call
whose `fmt::Result` is discarded (the `self.license.as_ref().map(|l|
l.fmt(fmt));` and `self.docs.as_ref().map(|d| d.fmt(fmt));` statements in
`Scope::fmt`). -/
inductive WProg where
  | skip
  | wr (t : String)
  | seq (a b : WProg)
  | ignoreErr (a : WProg)

/-- Sequence a list of write programs with `?` propagation. -/
def seqList (ps : List WProg) : WProg := ps.foldr WProg.seq WProg.skip

/-- Run a write program against a sink.  The boolean result is `true` for
`Ok(())` and `false` for `Err(fmt::Error)`; `seq` aborts at the first
failing component, `ignoreErr` keeps the sink state but discards the
result. -/
def WProg.run : WProg → Fmt → Fmt × Bool
  | .skip, f => (f, true)
  | .wr t, f => f.write t
  | .seq a b, f =>
    match a.run f with
    | (f1, true) => b.run f1
    | (f1, false) => (f1, false)
  | .ignoreErr a, f => ((a.run f).1, true)

/-- The text emitted by a run of the program in which every write succeeds. -/
def WProg.flat : WProg → String
  | .skip => ""
  | .wr _t => _t
  | .seq a b => a.flat ++ b.flat
  | .ignoreErr a => a.flat

/-- A program that performs no write at all. -/
def WProg.writeFree : WProg → Bool
  | .skip => true
  | .wr _ => false
  | .seq a b => a.writeFree && b.writeFree
  | .ignoreErr a => a.writeFree

/-- A program that lets every write failure propagate: it contains no
`ignoreErr` around a program that actually writes. -/
def WProg.propagating : WProg → Bool
  | .skip => true
  | .wr _ => true
  | .seq a b => a.propagating && b.propagating
  | .ignoreErr a => a.writeFree

/-- A run of the program raises a write failure at a point whose result is
not discarded.  `seq` runs its second component only after the first
reported success (the `?` operator); everything under `ignoreErr` is
excluded, because its result — and with it any failure — is discarded.
These are precisely the write failures a caller of the program can
observe. -/
def unmaskedFails : WProg → Fmt → Bool
  | .skip, _ => false
  | .wr t, f => !(f.write t).2
  | .seq a b, f => unmaskedFails a f || ((a.run f).2 && unmaskedFails b (a.run f).1)
  | .ignoreErr _, _ => false

/-- Modelled from the spec: `import.rs` is not under `src/`.  An `Import`
is identified by the pair (path, type name) and carries an optional
visibility qualifier (spec section 3); `scope.rs` constructs it with
`Import::new(path, ty)` and reads its `vis` field. -/
structure Import where
  path : String
  ty : String
  vis : Option String
deriving DecidableEq

/-- `Import::new` as used by `Scope::import`: a fresh record with no
visibility qualifier. -/
def Import.new (path ty : String) : Import := ⟨path, ty, none⟩

/-- Modelled from the spec: `docs.rs` is not under `src/`.  A documentation
block is a passive data holder whose formatting is a one-shot line-comment
emission (spec sections 1 and 4.4); its exact comment marker is not
observable by any settled claim. -/
structure Docs where
  text : String

/-- Modelled from the spec: rendering of a documentation block, one emitted
line per stored line. -/
def Docs.fmtP (d : Docs) : WProg :=
  seqList ((rlines d.text).map (fun l => WProg.wr ("/// " ++ l ++ "\n")))

/-- The type of the license, from `license.rs`. -/
inductive LicenseType where
  | mit
  | bsd
deriving DecidableEq

/-- The `MIT_LICENSE_TEXT` constant of `license.rs` (the placeholder line
consists of an opening and a closing brace). -/
def MIT_LICENSE_TEXT : String :=
  "MIT License\n\n\x7b\x7d\n\nPermission is hereby granted, free of charge, to any person obtaining a copy\nof this software and associated documentation files (the \"Software\"), to deal\nin the Software without restriction, including without limitation the rights\nto use, copy, modify, merge, publish, distribute, sublicense, and/or sell\ncopies of the Software, and to permit persons to whom the Software is\nfurnished to do so, subject to the following conditions:\n\nThe above copyright notice and this permission notice shall be included in all\ncopies or substantial portions of the Software.\n\nTHE SOFTWARE IS PROVIDED \"AS IS\", WITHOUT WARRANTY OF ANY KIND, EXPRESS OR\nIMPLIED, INCLUDING BUT NOT LIMITED TO THE WARRANTIES OF MERCHANTABILITY,\nFITNESS FOR A PARTICULAR PURPOSE AND NONINFRINGEMENT. IN NO EVENT SHALL THE\nAUTHORS OR COPYRIGHT HOLDERS BE LIABLE FOR ANY CLAIM, DAMAGES OR OTHER\nLIABILITY, WHETHER IN AN ACTION OF CONTRACT, TORT OR OTHERWISE, ARISING FROM,\nOUT OF OR IN CONNECTION WITH THE SOFTWARE OR THE USE OR OTHER DEALINGS IN THE\nSOFTWARE."

/-- The `BSD_LICENSE_TEXT` constant of `license.rs`: empty. -/
def BSD_LICENSE_TEXT : String := ""

/-- Template text selection in `License::fmt`. -/
def licenseText : LicenseType → String
  | .mit => MIT_LICENSE_TEXT
  | .bsd => BSD_LICENSE_TEXT

/-- SPDX identifier selection in `License::fmt`. -/
def spdxOf : LicenseType → String
  | .mit => "MIT"
  | .bsd => "BSD"

/-- The `License` struct of `license.rs`. -/
structure License where
  copyrights : List String
  title : String
  ty : LicenseType

/-- `License::new`. -/
def License.new (title : String) (ty : LicenseType) : License := ⟨[], title, ty⟩

/-- `License::add_copyright`. -/
def License.add_copyright (l : License) (c : String) : License :=
  { l with copyrights := l.copyrights ++ [c] }

/-- The body of the template-line loop of `License::fmt` (license.rs lines
74-82): the brace-pair placeholder line becomes one copyright line per
registered entry, every other line is copied as a line comment. -/
def licLineProg (copyrights : List String) (line : String) : WProg :=
  if line = "\x7b\x7d" then
    seqList (copyrights.map (fun c => WProg.wr ("// Copyright (c) " ++ c ++ "\n")))
  else WProg.wr ("// " ++ line ++ "\n")

/-- `License::fmt` (license.rs lines 63-92): optional title header, the
template lines as line comments with the brace-pair placeholder line
replaced by one copyright line per registered entry, then the SPDX tail
(whose final `writeln!(fmt, "//\n")` emits two newline characters). -/
def License.fmtP (l : License) : WProg :=
  WProg.seq
    (if l.title = "" then WProg.skip
     else WProg.seq (WProg.wr ("// " ++ l.title ++ "\n")) (WProg.wr "//\n"))
    (WProg.seq
      (seqList ((rlines (licenseText l.ty)).map (licLineProg l.copyrights)))
      (WProg.seq (WProg.wr "//\n")
        (WProg.seq (WProg.wr ("// SPDX-License-Identifier: " ++ spdxOf l.ty ++ "\n"))
          (WProg.wr "//\n\n"))))

/-- The `Comment` struct of `comment.rs`. -/
structure Comment where
  comment : String

/-- `Comment::new`. -/
def Comment.new (c : String) : Comment := ⟨c⟩

/-- `Comment::fmt`: each line of the stored text as a line comment. -/
def Comment.fmtP (c : Comment) : WProg :=
  seqList ((rlines c.comment).map (fun l => WProg.wr ("// " ++ l ++ "\n")))

/-- The `Const` struct of `consts.rs`.  The `Type` payload is modelled from
the spec (`type.rs` is not under `src/`): the type renderer is a leaf that
emits the textual form of the type. -/
structure Const where
  name : String
  ty : String
  vis : Option String
  documentation : List String
  value : String

/-- `Const::new`. -/
def Const.new (name ty value : String) : Const := ⟨name, ty, none, [], value⟩

/-- `Const::fmt`: doc lines, visibility + `const` header, the type, the
value. -/
def Const.fmtP (c : Const) : WProg :=
  WProg.seq (seqList (c.documentation.map (fun d => WProg.wr ("/// " ++ d ++ "\n"))))
    (WProg.seq
      (match c.vis with
       | some v => WProg.wr (v ++ " const " ++ c.name ++ " : ")
       | none => WProg.wr ("const " ++ c.name ++ " : "))
      (WProg.seq (WProg.wr c.ty) (WProg.wr (" = " ++ c.value ++ ";\n"))))

/-- First value stored under a key in an insertion-ordered association
list, the lookup discipline of `IndexMap`. -/
def getA {α : Type} (m : List (String × α)) (k : String) : Option α :=
  match m with
  | [] => none
  | (k1, v) :: rest => if k1 = k then some v else getA rest k

/-- Store a value under a key in an insertion-ordered association list:
replace the value at the first occurrence of the key, keeping its position,
or append a fresh entry at the end — the `IndexMap` insertion discipline. -/
def setA {α : Type} (m : List (String × α)) (k : String) (v : α) : List (String × α) :=
  match m with
  | [] => [(k, v)]
  | (k1, v1) :: rest => if k1 = k then (k, v) :: rest else (k1, v1) :: setA rest k v

/-- Characters of a type argument before its first `::` occurrence. -/
def keyAux : List Char → List Char → List Char
  | [], acc => acc.reverse
  | ':' :: ':' :: _, acc => acc.reverse
  | c :: rest, acc => keyAux rest (c :: acc)

/-- The key under which `Scope::import` stores a type: the segment of the
argument before the first `::` occurrence (`ty.split("::").next().unwrap_or(ty)`
in scope.rs line 68), which is the whole argument when it contains no `::`. -/
def importKey (ty : String) : String := String.mk (keyAux ty.data [])

mutual

/-- The declaration items of a `Scope` (the `Item` enum matched in
`Scope::fmt`).  `item.rs` and the declaration kinds other than `Comment`,
`Const` and `Raw` are not under `src/`; modelled from the spec, `Struct`,
`Function`, `Trait`, `Enum` and `Impl` are passive data holders whose own
formatting is a straightforward one-shot text emission ending with a line
break (spec sections 1 and 6), so each is modelled by the text it emits. -/
inductive Item where
  | commentI (c : Comment)
  | constI (c : Const)
  | moduleI (m : Module)
  | structI (body : String)
  | functionI (body : String)
  | traitI (body : String)
  | enumI (body : String)
  | implI (body : String)
  | rawI (s : String)

/-- Modelled from the spec: `module.rs` is not under `src/`.  A `Module`
is a thin wrapper holding a name and a nested `Scope` (spec section 3). -/
inductive Module where
  | mk (name : String) (scope : Scope)

/-- The `Scope` struct (scope.rs lines 23-36): optional documentation,
optional license, the two-level insertion-ordered import table
`path -> (type name -> Import)`, and the ordered item sequence. -/
inductive Scope where
  | mk (docs : Option Docs) (license : Option License)
       (importsL : List (String × List (String × Import))) (items : List Item)

end

/-- The name of a module. -/
def Module.name : Module → String
  | .mk n _ => n

/-- The nested scope of a module. -/
def Module.scope : Module → Scope
  | .mk _ s => s

/-- The documentation of a scope. -/
def Scope.docs : Scope → Option Docs
  | .mk d _ _ _ => d

/-- The license of a scope. -/
def Scope.license : Scope → Option License
  | .mk _ l _ _ => l

/-- The two-level import table of a scope. -/
def Scope.importsL : Scope → List (String × List (String × Import))
  | .mk _ _ m _ => m

/-- The ordered item sequence of a scope. -/
def Scope.items : Scope → List Item
  | .mk _ _ _ i => i

/-- `Scope::new`: empty scope. -/
def Scope.new : Scope := .mk none none [] []

/-- Modelled from the spec: `Module::new` (module.rs is not under `src/`)
wraps a name around a fresh empty scope. -/
def Module.new (name : String) : Module := .mk name Scope.new

/-- Replace the import table of a scope. -/
def Scope.withImports (s : Scope) (m : List (String × List (String × Import))) : Scope :=
  match s with
  | .mk d l _ i => .mk d l m i

/-- Append an item to a scope. -/
def Scope.pushItem (s : Scope) (it : Item) : Scope :=
  match s with
  | .mk d l m i => .mk d l m (i ++ [it])

/-- The body of `Scope::import` after the type argument has been keyed:
`entry(path).or_default().entry(ty).or_insert_with(|| Import::new(path, ty))`
(scope.rs lines 69-73).  Returns the possibly extended scope together with
the record the `&mut Import` return value refers to. -/
def Scope.importKeyed (s : Scope) (path k : String) : Scope × Import :=
  let inner := (getA s.importsL path).getD []
  match getA inner k with
  | some imp => (s, imp)
  | none =>
    let imp := Import.new path k
    (s.withImports (setA s.importsL path (inner ++ [(k, imp)])), imp)

/-- `Scope::import` (scope.rs lines 65-74): key the type argument at the
first `::` and insert-or-reuse the record for the (path, key) pair. -/
def Scope.import (s : Scope) (path ty : String) : Scope × Import :=
  s.importKeyed path (importKey ty)

/-- `Scope::get_module` (scope.rs lines 128-139): the first direct-child
module item with the given name.  `Scope::get_module_mut` performs the same
traversal, so this single function models both. -/
def Scope.get_module (s : Scope) (name : String) : Option Module :=
  s.items.findSome? (fun it =>
    match it with
    | Item.moduleI m => if m.name = name then some m else none
    | _ => none)

/-- `Scope::push_module` (scope.rs lines 163-167): `none` models the
`assert!` panic on a duplicate direct-child module name; otherwise the
module is appended. -/
def Scope.push_module (s : Scope) (m : Module) : Option Scope :=
  if (s.get_module m.name).isSome then none
  else some (s.pushItem (Item.moduleI m))

/-- `Scope::new_module` (scope.rs lines 104-111): push a fresh module and
return the just-appended item (the `unreachable!()` arm is `none`). -/
def Scope.new_module (s : Scope) (name : String) : Option (Scope × Module) :=
  match s.push_module (Module.new name) with
  | none => none
  | some s1 =>
    match s1.items.getLast? with
    | some (Item.moduleI m) => some (s1, m)
    | _ => none

/-- `Scope::get_or_new_module` (scope.rs lines 143-149). -/
def Scope.get_or_new_module (s : Scope) (name : String) : Option (Scope × Module) :=
  match s.get_module name with
  | some m => some (s, m)
  | none => s.new_module name

/-- The dedup-insert step of the visibility collection loop in
`Scope::fmt_imports` (scope.rs lines 312-318): push a visibility unless it
is already present. -/
def insVis (acc : List (Option String)) (v : Option String) : List (Option String) :=
  if v ∈ acc then acc else acc ++ [v]

/-- The inner loop of the visibility collection: fold one path's type
entries in stored order into the accumulator. -/
def visFoldInner (inner : List (String × Import)) (acc : List (Option String)) :
    List (Option String) :=
  inner.foldl (fun acc ti => insVis acc ti.2.vis) acc

/-- The distinct visibility qualifiers of an import table in first-encounter
order, iterating paths and type entries in stored order (scope.rs lines
310-318). -/
def vissOf (imps : List (String × List (String × Import))) : List (Option String) :=
  imps.foldl (fun acc pi => visFoldInner pi.2 acc) []

/-- The visibility list of a scope's import table. -/
def Scope.visibilities (s : Scope) : List (Option String) := vissOf s.importsL

/-- The type names of one path's inner mapping whose import record carries
the given visibility, in stored order (scope.rs lines 325-331). -/
def tysFor (inner : List (String × Import)) (v : Option String) : List String :=
  (inner.filter (fun ti => ti.2.vis = v)).map Prod.fst

/-- The visibility qualifier text written before `use` when one is set
(scope.rs lines 334-336). -/
def visPre : Option String → String
  | some v => v ++ " "
  | none => ""

/-- One emitted `use` statement (scope.rs lines 338-357): single type
without braces, two or more types as a brace-delimited comma-separated
list; an empty type list emits nothing. -/
def useLine (v : Option String) (path : String) (tys : List String) : String :=
  match tys with
  | [] => ""
  | [t] => visPre v ++ "use " ++ path ++ "::" ++ t ++ ";\n"
  | ts => visPre v ++ "use " ++ path ++ "::\x7b" ++ String.intercalate ", " ts ++ "\x7d;\n"

/-- `Scope::fmt_imports` (scope.rs lines 308-363) over an import table and
its collected visibility list: for each visibility in discovery order and
each path in insertion order, emit the matching group when it is nonempty.
Each emitted statement is modelled as a single write. -/
def fmtImportsP (imps : List (String × List (String × Import)))
    (vs : List (Option String)) : WProg :=
  seqList (vs.flatMap (fun v => imps.filterMap (fun pi =>
    let tys := tysFor pi.2 v
    if tys.isEmpty then none else some (WProg.wr (useLine v pi.1 tys)))))

/-- The license step of `Scope::fmt` (scope.rs line 276): render the
license when one is set, discarding its `fmt::Result`. -/
def licenseProgOf (o : Option License) : WProg :=
  WProg.ignoreErr (match o with | some l => l.fmtP | none => WProg.skip)

/-- The documentation step of `Scope::fmt` (scope.rs line 277): render the
documentation when set, discarding its `fmt::Result`. -/
def docsProgOf (o : Option Docs) : WProg :=
  WProg.ignoreErr (match o with | some d => d.fmtP | none => WProg.skip)

mutual

/-- `Scope::fmt` (scope.rs lines 274-306): license and documentation with
their results dropped, the grouped import block, one blank line when
the import table is nonempty, then the items with a blank-line write between
consecutive ones. -/
def Scope.fmtP : Scope → WProg
  | .mk docs license importsL items =>
    WProg.seq (licenseProgOf license)
      (WProg.seq (docsProgOf docs)
        (WProg.seq (fmtImportsP importsL (vissOf importsL))
          (WProg.seq (if importsL.isEmpty then WProg.skip else WProg.wr "\n")
            (itemsP true items))))

/-- The item loop of `Scope::fmt` (scope.rs lines 285-303): a newline write
before every item except the first, then the item's own renderer. -/
def itemsP : Bool → List Item → WProg
  | _, [] => WProg.skip
  | first, x :: xs =>
    WProg.seq (if first then Item.fmtP x else WProg.seq (WProg.wr "\n") (Item.fmtP x))
      (itemsP false xs)

/-- The per-kind dispatch of the item loop (scope.rs lines 290-302).  The
kinds whose renderer is not under `src/` emit their stored text followed by
a line break (see `Item`); `Raw` is `writeln!(fmt, "{v}")`. -/
def Item.fmtP : Item → WProg
  | .commentI c => c.fmtP
  | .constI c => c.fmtP
  | .moduleI m => m.fmtP
  | .structI body => WProg.wr (body ++ "\n")
  | .functionI body => WProg.wr (body ++ "\n")
  | .traitI body => WProg.wr (body ++ "\n")
  | .enumI body => WProg.wr (body ++ "\n")
  | .implI body => WProg.wr (body ++ "\n")
  | .rawI v => WProg.wr (v ++ "\n")

/-- Modelled from the spec: module rendering (`module.rs` is not under
`src/`) emits a header, the nested scope's content rendered through the
same sink, and a closing line; the indent prefix is elided together with
the Formatter depth counter (no settled claim observes module body text). -/
def Module.fmtP : Module → WProg
  | .mk name scope =>
    WProg.seq (WProg.wr ("mod " ++ name ++ " \x7b\n"))
      (WProg.seq (Scope.fmtP scope) (WProg.wr "\x7d\n"))

end

/-- Run `Scope::fmt` against a sink. -/
def Scope.fmtRun (s : Scope) (f : Fmt) : Fmt × Bool := (Scope.fmtP s).run f

/-- The text produced by a failure-free render of a scope. -/
def Scope.render (s : Scope) : String := (Scope.fmtP s).flat

/-- The text produced by a failure-free render of an item. -/
def Item.render (it : Item) : String := (Item.fmtP it).flat

/-- The trailing-newline trim of `impl fmt::Display for Scope` (scope.rs
lines 378-381): pop the final character when the final byte is a newline. -/
def trimNl (r : String) : String :=
  if r.data.getLast? = some '\n' then String.mk r.data.dropLast else r

/-- `impl fmt::Display for Scope` (scope.rs lines 372-385): render into a
fresh infallible sink (the `String` buffer, whose writes never fail, so the
`unwrap()` never panics) and trim one trailing newline byte if present. -/
def Scope.toString (s : Scope) : String :=
  trimNl (Scope.fmtRun s ⟨"", none, false⟩).1.out

/-- Every (path, type-name) pair occurring in some emitted `use` statement
of the grouped import block, with multiplicity, in emission order. -/
def emittedPairs (s : Scope) : List (String × String) :=
  (Scope.visibilities s).flatMap (fun v =>
    s.importsL.flatMap (fun pi => (tysFor pi.2 v).map (fun t => (pi.1, t))))

/-- Every (path, type-name) pair registered in the import table. -/
def registeredPairs (s : Scope) : List (String × String) :=
  s.importsL.flatMap (fun pi => pi.2.map (fun ti => (pi.1, ti.1)))

/-- Well-formedness of the import table maintained by `IndexMap`: the path
keys are distinct and so are the type keys inside each path. -/
def Scope.importsWF (s : Scope) : Prop :=
  (s.importsL.map Prod.fst).Nodup ∧ ∀ pi ∈ s.importsL, (pi.2.map Prod.fst).Nodup

/-- Occurrence count of an element in a list. -/
def cnt {α : Type} [DecidableEq α] (b : α) : List α → Nat
  | [] => 0
  | x :: xs => (if x = b then 1 else 0) + cnt b xs

/-- Plain concatenation of a list of strings. -/
def strCat : List String → String
  | [] => ""
  | x :: xs => x ++ strCat xs

/-- Concatenation of strings, each preceded by one newline. -/
def joinNl : List String → String
  | [] => ""
  | y :: ys => "\n" ++ y ++ joinNl ys

/-- Strings joined with a single newline between consecutive elements:
none before the first, none after the last. -/
def sepNl : List String → String
  | [] => ""
  | x :: xs => x ++ joinNl xs

/-- The part of `Scope::fmt` that precedes the item loop: license,
documentation, grouped imports, and the post-import blank line emitted
exactly when the import table is nonempty. -/
def Scope.renderHead (s : Scope) : String :=
  (licenseProgOf s.license).flat ++ (docsProgOf s.docs).flat ++
    (fmtImportsP s.importsL (vissOf s.importsL)).flat ++
    (if s.importsL.isEmpty then "" else "\n")

/-- The grouped import block alone, as text. -/
def Scope.renderImports (s : Scope) : String :=
  (fmtImportsP s.importsL (vissOf s.importsL)).flat

/-- The text emitted by a failure-free run of `License::fmt`. -/
def License.render (l : License) : String := (License.fmtP l).flat

/-- The scope of the import-grouping example: exactly the imports
(`std::io`, `Read`), (`std::io`, `Write`), (`std::fmt`, `Display`)
registered in that order, none with a visibility qualifier. -/
def importExampleScope : Scope :=
  (((Scope.new.import "std::io" "Read").1.import "std::io" "Write").1.import
    "std::fmt" "Display").1

/-- A scope whose only content is a license, used to exhibit the swallowed
license-render failure. -/
def licErrScope : Scope :=
  Scope.mk none (some (License.new "T" LicenseType.bsd)) [] []

/-- A scope with one raw item and nothing else. -/
def rawOnlyScope : Scope := Scope.mk none none [] [Item.rawI "x"]

/-- A scope that carries both a license and a declaration: its license
performs five writes, so a sink failing at the sixth write call fails
inside the declaration phase. -/
def licRawScope : Scope :=
  Scope.mk none (some (License.new "T" LicenseType.bsd)) [] [Item.rawI "x"]

/-- A scope whose last (and only) rendered construct is a license block. -/
def licenseOnlyScope : Scope :=
  Scope.mk none (some (License.new "T" LicenseType.bsd)) [] []

/-- A scope with a single one-line comment. -/
def commentOnlyScope : Scope :=
  Scope.mk none none [] [Item.commentI (Comment.new "hi")]

/-- A scope with a single registered import. -/
def importOneScope : Scope := (Scope.new.import "p" "T").1

/-- A scope that already contains a direct-child module named `foo`. -/
def moduleFooScope : Scope :=
  Scope.mk none none [] [Item.moduleI (Module.new "foo")]

/-! ### Basic lemmas about the sink and write programs -/

theorem Fmt.write_none {f : Fmt} (h : f.failAt = none) (t : String) :
    f.write t = ({ f with out := f.out ++ t }, true) := by
  simp [Fmt.write, h]

/-- A write-free program leaves any sink untouched and succeeds. -/
theorem run_writeFree {p : WProg} (h : p.writeFree = true) (f : Fmt) :
    p.run f = (f, true) := by
  induction p generalizing f with
  | skip => rfl
  | wr t => simp [WProg.writeFree] at h
  | seq a b iha ihb =>
    simp only [WProg.writeFree, Bool.and_eq_true] at h
    simp [WProg.run, iha h.1, ihb h.2]
  | ignoreErr a iha =>
    simp only [WProg.writeFree] at h
    simp [WProg.run, iha h]

/-- Running a program against an infallible sink appends exactly the flat
text of the program and succeeds. -/
theorem run_flat (p : WProg) (f : Fmt) (h : f.failAt = none) :
    p.run f = ({ f with out := f.out ++ p.flat }, true) := by
  induction p generalizing f with
  | skip =>
    simp [WProg.run, WProg.flat, String.append_empty]
  | wr t => simp [WProg.run, WProg.flat, Fmt.write_none h]
  | seq a b iha ihb =>
    simp only [WProg.run, WProg.flat, iha f h]
    rw [ihb]
    · simp [String.append_assoc]
    · simpa using h
  | ignoreErr a iha =>
    simp [WProg.run, WProg.flat, iha f h]

/-- In a program that never discards the result of a writing subprogram,
the run reports failure exactly when some write call failed. -/
theorem run_propagating {p : WProg} (h : p.propagating = true) (f : Fmt)
    (hf : f.failed = false) :
    ((p.run f).2 = false ↔ (p.run f).1.failed = true) := by
  induction p generalizing f with
  | skip => simp [WProg.run, hf]
  | wr t =>
    simp only [WProg.run, Fmt.write]
    match hfa : f.failAt with
    | none => simp [hf]
    | some 0 => simp
    | some (n + 1) => simp [hf]
  | seq a b iha ihb =>
    simp only [WProg.propagating, Bool.and_eq_true] at h
    simp only [WProg.run]
    match hr : a.run f with
    | (f1, true) =>
      have h1 : f1.failed = false := by
        have := iha h.1 f hf
        rw [hr] at this
        simpa using (Bool.not_eq_true _).mp (fun hff => by simp [hff] at this)
      simpa using ihb h.2 f1 h1
    | (f1, false) =>
      have := iha h.1 f hf
      rw [hr] at this
      simpa using this.mp rfl
  | ignoreErr a iha =>
    simp only [WProg.propagating] at h
    simp [WProg.run, run_writeFree h, hf]

/-- For every program and every sink, the run reports failure exactly when
a write call failed at a point whose result is not discarded. -/
theorem run_unmasked (p : WProg) (f : Fmt) :
    ((p.run f).2 = false ↔ unmaskedFails p f = true) := by
  induction p generalizing f with
  | skip => simp [WProg.run, unmaskedFails]
  | wr t =>
    simp only [WProg.run, unmaskedFails]
    cases h : (f.write t).2 <;> simp [h]
  | seq a b iha ihb =>
    rcases hr : a.run f with ⟨f1, ok⟩
    cases ok with
    | false =>
      have ha : unmaskedFails a f = true := (iha f).mp (by rw [hr])
      simp [WProg.run, unmaskedFails, hr, ha]
    | true =>
      have ha : unmaskedFails a f = false := by
        by_contra hc
        have h2 := (iha f).mpr (by simpa using hc)
        rw [hr] at h2
        simp at h2
      simp [WProg.run, unmaskedFails, hr, ha, ihb f1]
  | ignoreErr a iha =>
    simp [WProg.run, unmaskedFails]

/-- The flat text of a sequenced list of mapped writes is the concatenation
of the written texts. -/
theorem flat_seqList_wr {α : Type} (g : α → String) (l : List α) :
    (seqList (l.map (fun a => WProg.wr (g a)))).flat = strCat (l.map g) := by
  induction l with
  | nil => rfl
  | cons x xs ih =>
    simp only [seqList, List.map_cons, List.foldr_cons, WProg.flat, strCat]
    simpa [seqList] using congrArg (g x ++ ·) ih

/-! ### Association-list lemmas for the import table -/

theorem getA_setA_self {α : Type} (m : List (String × α)) (k : String) (v : α) :
    getA (setA m k v) k = some v := by
  induction m with
  | nil => simp [setA, getA]
  | cons e rest ih =>
    by_cases h : e.1 = k
    · simp [setA, getA, h]
    · simp [setA, getA, h, ih]

theorem getA_append_right {α : Type} {m : List (String × α)} {k : String}
    (h : getA m k = none) (l2 : List (String × α)) :
    getA (m ++ l2) k = getA l2 k := by
  induction m with
  | nil => simp
  | cons e rest ih =>
    by_cases he : e.1 = k
    · simp [getA, he] at h
    · simp only [getA, he, if_false, List.cons_append] at h ⊢
      simp [getA, he, ih h]

theorem mem_of_getA {α : Type} {m : List (String × α)} {k : String} {v : α}
    (h : getA m k = some v) : (k, v) ∈ m := by
  induction m with
  | nil => simp [getA] at h
  | cons e rest ih =>
    obtain ⟨k1, v1⟩ := e
    by_cases he : k1 = k
    · subst he
      simp only [getA, if_true, eq_self_iff_true, ite_true, Option.some.injEq] at h
      subst h
      exact List.mem_cons_self _ _
    · simp only [getA, he, ite_false] at h
      exact List.mem_cons_of_mem _ (ih h)

theorem mem_setA_self {α : Type} (m : List (String × α)) (k : String) (v : α) :
    (k, v) ∈ setA m k v := by
  induction m with
  | nil => simp [setA]
  | cons e rest ih =>
    by_cases h : e.1 = k
    · simp [setA, h]
    · simp [setA, h, ih]

theorem mem_setA {α : Type} {m : List (String × α)} {k : String} {v : α} {x : String × α}
    (h : x ∈ setA m k v) : x = (k, v) ∨ x ∈ m := by
  induction m with
  | nil => simpa [setA] using h
  | cons e rest ih =>
    obtain ⟨k1, v1⟩ := e
    by_cases he : k1 = k
    · subst he
      simp only [setA, if_true, eq_self_iff_true, ite_true, List.mem_cons] at h
      rcases h with h1 | h1
      · exact Or.inl h1
      · exact Or.inr (List.mem_cons_of_mem _ h1)
    · simp only [setA, he, ite_false, List.mem_cons] at h
      rcases h with h1 | h1
      · exact Or.inr (by simp [h1])
      · rcases ih h1 with h2 | h2
        · exact Or.inl h2
        · exact Or.inr (List.mem_cons_of_mem _ h2)

theorem getA_none_iff {α : Type} (m : List (String × α)) (k : String) :
    getA m k = none ↔ k ∉ m.map Prod.fst := by
  induction m with
  | nil => simp [getA]
  | cons e rest ih =>
    by_cases he : e.1 = k
    · simp [getA, he]
    · simp [getA, he, ih, Ne.symm he]

theorem keys_setA {α : Type} (m : List (String × α)) (k : String) (v : α) :
    (setA m k v).map Prod.fst =
      if k ∈ m.map Prod.fst then m.map Prod.fst else m.map Prod.fst ++ [k] := by
  induction m with
  | nil => simp [setA]
  | cons e rest ih =>
    by_cases he : e.1 = k
    · simp [setA, he]
    · simp only [setA, he, ite_false, List.map_cons, ih]
      by_cases hk : k ∈ rest.map Prod.fst
      · simp [hk, Ne.symm he]
      · simp [hk, Ne.symm he]

/-! ### Flattening lemmas for the rendering programs -/

theorem flat_seqList (ps : List WProg) : (seqList ps).flat = strCat (ps.map WProg.flat) := by
  induction ps with
  | nil => rfl
  | cons x xs ih =>
    simp only [seqList, List.foldr_cons, WProg.flat, List.map_cons, strCat] at ih ⊢
    simp [ih, seqList]

set_option maxRecDepth 4000 in
theorem mitLines : rlines MIT_LICENSE_TEXT =
    ["MIT License", "", "\x7b\x7d", "",
     "Permission is hereby granted, free of charge, to any person obtaining a copy",
     "of this software and associated documentation files (the \"Software\"), to deal",
     "in the Software without restriction, including without limitation the rights",
     "to use, copy, modify, merge, publish, distribute, sublicense, and/or sell",
     "copies of the Software, and to permit persons to whom the Software is",
     "furnished to do so, subject to the following conditions:", "",
     "The above copyright notice and this permission notice shall be included in all",
     "copies or substantial portions of the Software.", "",
     "THE SOFTWARE IS PROVIDED \"AS IS\", WITHOUT WARRANTY OF ANY KIND, EXPRESS OR",
     "IMPLIED, INCLUDING BUT NOT LIMITED TO THE WARRANTIES OF MERCHANTABILITY,",
     "FITNESS FOR A PARTICULAR PURPOSE AND NONINFRINGEMENT. IN NO EVENT SHALL THE",
     "AUTHORS OR COPYRIGHT HOLDERS BE LIABLE FOR ANY CLAIM, DAMAGES OR OTHER",
     "LIABILITY, WHETHER IN AN ACTION OF CONTRACT, TORT OR OTHERWISE, ARISING FROM,",
     "OUT OF OR IN CONNECTION WITH THE SOFTWARE OR THE USE OR OTHER DEALINGS IN THE",
     "SOFTWARE."] := by decide

/-- Applying the template-line loop body to the MIT template: exactly the
placeholder line becomes the copyright block; every other line is a comment
write. -/
theorem mitMap (cs : List String) :
    (rlines (licenseText LicenseType.mit)).map (licLineProg cs) =
    [WProg.wr "// MIT License\n", WProg.wr "// \n",
     seqList (cs.map (fun c => WProg.wr ("// Copyright (c) " ++ c ++ "\n"))),
     WProg.wr "// \n",
     WProg.wr "// Permission is hereby granted, free of charge, to any person obtaining a copy\n",
     WProg.wr "// of this software and associated documentation files (the \"Software\"), to deal\n",
     WProg.wr "// in the Software without restriction, including without limitation the rights\n",
     WProg.wr "// to use, copy, modify, merge, publish, distribute, sublicense, and/or sell\n",
     WProg.wr "// copies of the Software, and to permit persons to whom the Software is\n",
     WProg.wr "// furnished to do so, subject to the following conditions:\n",
     WProg.wr "// \n",
     WProg.wr "// The above copyright notice and this permission notice shall be included in all\n",
     WProg.wr "// copies or substantial portions of the Software.\n",
     WProg.wr "// \n",
     WProg.wr "// THE SOFTWARE IS PROVIDED \"AS IS\", WITHOUT WARRANTY OF ANY KIND, EXPRESS OR\n",
     WProg.wr "// IMPLIED, INCLUDING BUT NOT LIMITED TO THE WARRANTIES OF MERCHANTABILITY,\n",
     WProg.wr "// FITNESS FOR A PARTICULAR PURPOSE AND NONINFRINGEMENT. IN NO EVENT SHALL THE\n",
     WProg.wr "// AUTHORS OR COPYRIGHT HOLDERS BE LIABLE FOR ANY CLAIM, DAMAGES OR OTHER\n",
     WProg.wr "// LIABILITY, WHETHER IN AN ACTION OF CONTRACT, TORT OR OTHERWISE, ARISING FROM,\n",
     WProg.wr "// OUT OF OR IN CONNECTION WITH THE SOFTWARE OR THE USE OR OTHER DEALINGS IN THE\n",
     WProg.wr "// SOFTWARE.\n"] := by
  rw [show licenseText LicenseType.mit = MIT_LICENSE_TEXT from rfl, mitLines]
  rfl

theorem itemsP_false_flat (l : List Item) :
    (itemsP false l).flat = joinNl (l.map Item.render) := by
  induction l with
  | nil => simp [itemsP, WProg.flat, joinNl]
  | cons x xs ih =>
    simp [itemsP, WProg.flat, joinNl, Item.render, ih, String.append_assoc]

theorem itemsP_true_flat (l : List Item) :
    (itemsP true l).flat = sepNl (l.map Item.render) := by
  cases l with
  | nil => simp [itemsP, WProg.flat, sepNl]
  | cons x xs =>
    simp [itemsP, WProg.flat, sepNl, Item.render, itemsP_false_flat]

/-- The shape of a full failure-free scope render: license part,
documentation part, grouped import block, the conditional blank line, then
the newline-separated items. -/
theorem render_shape (s : Scope) :
    Scope.render s =
      (licenseProgOf s.license).flat ++ (docsProgOf s.docs).flat ++
        Scope.renderImports s ++ (if s.importsL.isEmpty then "" else "\n") ++
        sepNl (s.items.map Item.render) := by
  cases s with
  | mk d l m i =>
    simp only [Scope.render, Scope.fmtP, WProg.flat, Scope.renderImports, Scope.docs,
      Scope.license, Scope.importsL, Scope.items, itemsP_true_flat]
    by_cases hm : m.isEmpty <;> simp [hm, WProg.flat, String.append_assoc]

/-- The string conversion equals the trimmed failure-free render. -/
theorem toString_eq (s : Scope) : Scope.toString s = trimNl (Scope.render s) := by
  have h := run_flat (Scope.fmtP s) ⟨"", none, false⟩ rfl
  simp [Scope.toString, Scope.fmtRun, h, Scope.render, String.empty_append]

/-! ### Visibility collection lemmas -/

theorem mem_insVis_self (acc : List (Option String)) (v : Option String) :
    v ∈ insVis acc v := by
  by_cases h : v ∈ acc <;> simp [insVis, h]

theorem mem_insVis_of_mem {acc : List (Option String)} {x : Option String}
    (h : x ∈ acc) (v : Option String) : x ∈ insVis acc v := by
  by_cases hv : v ∈ acc <;> simp [insVis, hv, h]

theorem nodup_insVis {acc : List (Option String)} (h : acc.Nodup) (v : Option String) :
    (insVis acc v).Nodup := by
  by_cases hv : v ∈ acc
  · simpa [insVis, hv] using h
  · simp [insVis, hv, List.nodup_append, h, List.disjoint_singleton, hv]

theorem visFoldInner_mono {inner : List (String × Import)} {acc : List (Option String)}
    {x : Option String} (h : x ∈ acc) : x ∈ visFoldInner inner acc := by
  induction inner generalizing acc with
  | nil => simpa [visFoldInner] using h
  | cons hd rest ih =>
    show x ∈ visFoldInner rest (insVis acc hd.2.vis)
    exact ih (mem_insVis_of_mem h _)

theorem visFoldInner_mem {inner : List (String × Import)} {ti : String × Import}
    (h : ti ∈ inner) (acc : List (Option String)) : ti.2.vis ∈ visFoldInner inner acc := by
  induction inner generalizing acc with
  | nil => cases h
  | cons hd rest ih =>
    rcases List.mem_cons.mp h with h1 | h1
    · show ti.2.vis ∈ visFoldInner rest (insVis acc hd.2.vis)
      rw [h1]
      exact visFoldInner_mono (mem_insVis_self acc _)
    · exact ih h1 _

theorem visFoldInner_nodup {inner : List (String × Import)} {acc : List (Option String)}
    (h : acc.Nodup) : (visFoldInner inner acc).Nodup := by
  induction inner generalizing acc with
  | nil => simpa [visFoldInner] using h
  | cons hd rest ih =>
    show (visFoldInner rest (insVis acc hd.2.vis)).Nodup
    exact ih (nodup_insVis h _)

theorem foldlVis_mono {imps : List (String × List (String × Import))}
    {acc : List (Option String)} {x : Option String} (h : x ∈ acc) :
    x ∈ imps.foldl (fun acc pi => visFoldInner pi.2 acc) acc := by
  induction imps generalizing acc with
  | nil => simpa using h
  | cons hd rest ih => exact ih (visFoldInner_mono h)

theorem foldlVis_mem {imps : List (String × List (String × Import))}
    {pi : String × List (String × Import)} (hpi : pi ∈ imps) {ti : String × Import}
    (hti : ti ∈ pi.2) (acc : List (Option String)) :
    ti.2.vis ∈ imps.foldl (fun acc pi => visFoldInner pi.2 acc) acc := by
  induction imps generalizing acc with
  | nil => cases hpi
  | cons hd rest ih =>
    rcases List.mem_cons.mp hpi with h1 | h1
    · show ti.2.vis ∈ rest.foldl (fun acc pi => visFoldInner pi.2 acc) (visFoldInner hd.2 acc)
      exact foldlVis_mono (visFoldInner_mem (h1 ▸ hti) acc)
    · exact ih h1 _

theorem foldlVis_nodup {imps : List (String × List (String × Import))}
    {acc : List (Option String)} (h : acc.Nodup) :
    (imps.foldl (fun acc pi => visFoldInner pi.2 acc) acc).Nodup := by
  induction imps generalizing acc with
  | nil => simpa using h
  | cons hd rest ih => exact ih (visFoldInner_nodup h)

theorem mem_vissOf {imps : List (String × List (String × Import))}
    {pi : String × List (String × Import)} (hpi : pi ∈ imps) {ti : String × Import}
    (hti : ti ∈ pi.2) : ti.2.vis ∈ vissOf imps :=
  foldlVis_mem hpi hti []

theorem nodup_vissOf (imps : List (String × List (String × Import))) :
    (vissOf imps).Nodup :=
  foldlVis_nodup List.nodup_nil

/-! ### Counting lemmas -/

theorem cnt_append {α : Type} [DecidableEq α] (b : α) (l1 l2 : List α) :
    cnt b (l1 ++ l2) = cnt b l1 + cnt b l2 := by
  induction l1 with
  | nil => simp [cnt]
  | cons x xs ih => simp [cnt, ih]; omega

theorem cnt_eq_zero {α : Type} [DecidableEq α] {l : List α} {x : α} (h : x ∉ l) :
    cnt x l = 0 := by
  induction l with
  | nil => rfl
  | cons y ys ih =>
    have hy : ¬ y = x := fun hh => h (by simp [hh])
    have hys : x ∉ ys := fun hh => h (List.mem_cons_of_mem _ hh)
    simp [cnt, hy, ih hys]

theorem cnt_eq_one {α : Type} [DecidableEq α] {l : List α} {x : α}
    (hN : l.Nodup) (hx : x ∈ l) : cnt x l = 1 := by
  induction l with
  | nil => cases hx
  | cons y ys ih =>
    rcases List.mem_cons.mp hx with h1 | h1
    · subst h1
      have : x ∉ ys := (List.nodup_cons.mp hN).1
      simp [cnt, cnt_eq_zero this]
    · have hy : ¬ y = x := fun hh => (List.nodup_cons.mp hN).1 (hh ▸ h1)
      simp [cnt, hy, ih (List.nodup_cons.mp hN).2 h1]

theorem cnt_map_pair (p k q : String) (tys : List String) :
    cnt (p, k) (tys.map (fun t => (q, t))) = if q = p then cnt k tys else 0 := by
  induction tys with
  | nil => simp [cnt]
  | cons t ts ih =>
    by_cases hq : q = p
    · subst hq
      by_cases ht : t = k <;> simp [cnt, ht, ih, Prod.ext_iff]
    · simp [cnt, hq, ih, Prod.ext_iff]

theorem cnt_flatMap_ind {β γ : Type} [DecidableEq β] [DecidableEq γ]
    (vs : List β) (F : β → List γ) (b : γ) (vv : β)
    (hF : ∀ v ∈ vs, cnt b (F v) = if v = vv then 1 else 0) :
    cnt b (vs.flatMap F) = cnt vv vs := by
  induction vs with
  | nil => simp [cnt]
  | cons v rest ih =>
    rw [List.flatMap_cons, cnt_append, hF v (List.mem_cons_self _ _), cnt,
      ih (fun w hw => hF w (List.mem_cons_of_mem _ hw))]

/-! ### Import-table counting -/

theorem tysFor_sub {inner : List (String × Import)} {v : Option String} {k : String}
    (h : k ∈ tysFor inner v) : k ∈ inner.map Prod.fst := by
  simp only [tysFor, List.mem_map] at h
  obtain ⟨ti, hmem, hk⟩ := h
  exact List.mem_map.mpr ⟨ti, List.mem_of_mem_filter hmem, hk⟩

theorem cnt_tysFor_zero {inner : List (String × Import)} {v : Option String} {k : String}
    (h : k ∉ inner.map Prod.fst) : cnt k (tysFor inner v) = 0 :=
  cnt_eq_zero (fun hmem => h (tysFor_sub hmem))

theorem cnt_tysFor {inner : List (String × Import)} {k : String} {imp : Import}
    (hN : (inner.map Prod.fst).Nodup) (hmem : (k, imp) ∈ inner) (v : Option String) :
    cnt k (tysFor inner v) = if imp.vis = v then 1 else 0 := by
  induction inner with
  | nil => cases hmem
  | cons hd rest ih =>
    obtain ⟨k1, i1⟩ := hd
    rw [List.map_cons] at hN
    have hN1 : k1 ∉ rest.map Prod.fst := (List.nodup_cons.mp hN).1
    have hN2 : (rest.map Prod.fst).Nodup := (List.nodup_cons.mp hN).2
    rcases List.mem_cons.mp hmem with h1 | h1
    · injection h1 with hk hi
      subst hk
      subst hi
      have hz : cnt k (tysFor rest v) = 0 := cnt_tysFor_zero hN1
      simp only [tysFor] at hz
      by_cases hv : imp.vis = v <;> simp [tysFor, List.filter_cons, hv, cnt, hz]
    · have hk : ¬ k1 = k := by
        intro hh
        exact hN1 (hh ▸ List.mem_map.mpr ⟨(k, imp), h1, rfl⟩)
      have ihv := ih hN2 h1
      rw [tysFor] at ihv ⊢
      by_cases hv : i1.vis = v <;> simp [List.filter_cons, hv, cnt, hk, ihv]

theorem cnt_paths_zero {imps : List (String × List (String × Import))}
    {p : String} (k : String) {v : Option String} (h : p ∉ imps.map Prod.fst) :
    cnt (p, k) (imps.flatMap (fun pi => (tysFor pi.2 v).map (fun t => (pi.1, t)))) = 0 := by
  induction imps with
  | nil => simp [cnt]
  | cons hd rest ih =>
    have hp : ¬ hd.1 = p := fun hh => h (by simp [hh])
    have hrest : p ∉ rest.map Prod.fst := fun hh => h (List.mem_cons_of_mem _ hh)
    rw [List.flatMap_cons, cnt_append, cnt_map_pair, if_neg hp, ih hrest]

theorem cnt_paths {imps : List (String × List (String × Import))}
    {p : String} {inner : List (String × Import)}
    (hN : (imps.map Prod.fst).Nodup) (hmem : (p, inner) ∈ imps)
    (k : String) (v : Option String) :
    cnt (p, k) (imps.flatMap (fun pi => (tysFor pi.2 v).map (fun t => (pi.1, t)))) =
      cnt k (tysFor inner v) := by
  induction imps with
  | nil => cases hmem
  | cons hd rest ih =>
    obtain ⟨p1, in1⟩ := hd
    rw [List.map_cons] at hN
    have hN1 : p1 ∉ rest.map Prod.fst := (List.nodup_cons.mp hN).1
    have hN2 : (rest.map Prod.fst).Nodup := (List.nodup_cons.mp hN).2
    rcases List.mem_cons.mp hmem with h1 | h1
    · injection h1 with hp hi
      subst hp
      subst hi
      have hz := cnt_paths_zero (v := v) k hN1
      rw [List.flatMap_cons, cnt_append, cnt_map_pair, if_pos rfl, hz]
      simp
    · have hp : ¬ p1 = p := by
        intro hh
        exact hN1 (hh ▸ List.mem_map.mpr ⟨(p, inner), h1, rfl⟩)
      rw [List.flatMap_cons, cnt_append, cnt_map_pair, if_neg hp, ih hN2 h1]
      omega

/-- In a well-formed import table, a registered (path, type-name) pair is
emitted in exactly one `use` statement of the grouped import block. -/
theorem emitted_cnt {s : Scope} (hwf : Scope.importsWF s) {p k : String}
    {inner : List (String × Import)} {imp : Import}
    (hmemO : (p, inner) ∈ s.importsL) (hmemI : (k, imp) ∈ inner) :
    cnt (p, k) (emittedPairs s) = 1 := by
  have hstep : ∀ v ∈ Scope.visibilities s,
      cnt (p, k) (s.importsL.flatMap (fun pi => (tysFor pi.2 v).map (fun t => (pi.1, t)))) =
        if v = imp.vis then 1 else 0 := by
    intro v _
    rw [cnt_paths hwf.1 hmemO k v, cnt_tysFor (hwf.2 _ hmemO) hmemI v]
    by_cases hv : imp.vis = v
    · simp [hv]
    · have hv2 : ¬ v = imp.vis := fun hh => hv hh.symm
      simp [hv, hv2]
  rw [emittedPairs, cnt_flatMap_ind _ _ _ imp.vis hstep]
  have hmv : imp.vis ∈ vissOf s.importsL := by simpa using mem_vissOf hmemO hmemI
  exact cnt_eq_one (nodup_vissOf _) hmv

/-! ### Import insertion lemmas -/

theorem importsL_withImports (s : Scope) (m : List (String × List (String × Import))) :
    (s.withImports m).importsL = m := by
  cases s
  rfl

theorem importKeyed_lookup (s : Scope) (p k : String) :
    getA ((getA (s.importKeyed p k).1.importsL p).getD []) k =
      some (s.importKeyed p k).2 := by
  unfold Scope.importKeyed
  cases hg : getA ((getA s.importsL p).getD []) k with
  | some imp => simp [hg]
  | none =>
    simp only [hg, importsL_withImports, getA_setA_self, Option.getD_some]
    rw [getA_append_right hg]
    simp [getA]

theorem importKeyed_twice (s : Scope) (p k : String) :
    (s.importKeyed p k).1.importKeyed p k = ((s.importKeyed p k).1, (s.importKeyed p k).2) := by
  rcases hr : s.importKeyed p k with ⟨s1, i1⟩
  have h := importKeyed_lookup s p k
  rw [hr] at h
  show s1.importKeyed p k = (s1, i1)
  simp only [Scope.importKeyed] at h ⊢
  rw [h]

theorem importKeyed_mem (s : Scope) (p k : String) :
    ∃ inner, (p, inner) ∈ (s.importKeyed p k).1.importsL ∧
      (k, (s.importKeyed p k).2) ∈ inner := by
  unfold Scope.importKeyed
  cases hg : getA ((getA s.importsL p).getD []) k with
  | some imp =>
    simp only [hg]
    cases hgp : getA s.importsL p with
    | none =>
      rw [hgp] at hg
      simp [getA] at hg
    | some inner0 =>
      rw [hgp] at hg
      exact ⟨inner0, mem_of_getA hgp, mem_of_getA (by simpa using hg)⟩
  | none =>
    simp only [hg, importsL_withImports]
    exact ⟨(getA s.importsL p).getD [] ++ [(k, Import.new p k)], mem_setA_self _ _ _, by simp⟩

theorem importKeyed_wf {s : Scope} (hwf : Scope.importsWF s) (p k : String) :
    Scope.importsWF (s.importKeyed p k).1 := by
  unfold Scope.importKeyed
  cases hg : getA ((getA s.importsL p).getD []) k with
  | some imp => simpa [hg] using hwf
  | none =>
    simp only [hg]
    constructor
    · simp only [importsL_withImports, keys_setA]
      by_cases hp : p ∈ s.importsL.map Prod.fst
      · simpa [hp] using hwf.1
      · simp [hp, List.nodup_append, hwf.1, List.disjoint_singleton, hp]
    · intro pi hpi
      simp only [importsL_withImports] at hpi
      rcases mem_setA hpi with h1 | h1
      · subst h1
        have hk : k ∉ ((getA s.importsL p).getD []).map Prod.fst := by
          exact (getA_none_iff _ _).mp hg
        have hnd : (((getA s.importsL p).getD []).map Prod.fst).Nodup := by
          cases hgp : getA s.importsL p with
          | none => simp
          | some inner0 => simpa [hgp] using hwf.2 _ (mem_of_getA hgp)
        simp [List.nodup_append, hnd, List.disjoint_singleton, hk]
      · exact hwf.2 _ h1

theorem items_pushItem (s : Scope) (it : Item) : (s.pushItem it).items = s.items ++ [it] := by
  cases s
  rfl

/-! ### Settled claims -/

/-- C1, counterexample: with a sink whose first write fails, rendering a
scope that carries only a license reports success (`Ok(())`) even though
the underlying write primitive failed — `Scope::fmt` discards the
`fmt::Result` of `License::fmt`, so the failure does not propagate to the
caller. -/
theorem scope_fmt_swallows_license_error :
    (Scope.fmtRun licErrScope ⟨"", some 0, false⟩).2 = true ∧
    (Scope.fmtRun licErrScope ⟨"", some 0, false⟩).1.failed = true := by
  constructor <;>
    · simp only [Scope.fmtRun, licErrScope, Scope.fmtP]
      decide

/-- C1, amended: for every scope and every sink, `Scope::fmt` reports
failure if and only if the render raised a write failure at a point whose
result reaches the caller — that is, outside every License or Documentation
block (at any module nesting depth).  Failures raised while rendering the
License or Documentation never count as observable: their `fmt::Result`s
are discarded by `Scope::fmt`, so nothing of them propagates.  There is a
single error value, so an observable failure arrives unchanged, and the
`seq`/`?` structure aborts at the first observable failure. -/
theorem scope_fmt_error_propagation (s : Scope) (f : Fmt) :
    ((Scope.fmtRun s f).2 = false ↔ unmaskedFails (Scope.fmtP s) f = true) ∧
    unmaskedFails (licenseProgOf s.license) f = false ∧
    unmaskedFails (docsProgOf s.docs) f = false :=
  ⟨run_unmasked (Scope.fmtP s) f, rfl, rfl⟩

/-- C1, witness: the mixed case — a scope that carries a license *and* a
declaration, on a sink that fails at the first declaration-phase write
(the license performs the first five writes): the failure is observable and
`Scope::fmt` reports it, and the sink records that a write really failed. -/
theorem scope_fmt_error_propagation_witness :
    (Scope.fmtRun licRawScope ⟨"", some 5, false⟩).2 = false ∧
    (Scope.fmtRun licRawScope ⟨"", some 5, false⟩).1.failed = true := by
  constructor
  · exact (scope_fmt_error_propagation licRawScope ⟨"", some 5, false⟩).1.mpr
      (by simp only [licRawScope, Scope.fmtP, itemsP, Item.fmtP]; decide)
  · simp only [Scope.fmtRun, licRawScope, Scope.fmtP]
    decide

/-- C2, counterexample: the string conversion of a scope whose last (and
only) rendered construct is a License block ends with a newline character,
because the license render ends with two newline bytes and only one is
trimmed. -/
theorem display_output_can_end_with_newline :
    (Scope.toString licenseOnlyScope).data.getLast? = some '\n' := by
  simp only [Scope.toString, Scope.fmtRun, licenseOnlyScope, Scope.fmtP]
  decide

/-- C2, amended: the public string conversion trims exactly one trailing
newline byte if present; consequently the output does not end with a
line-break character whenever the untrimmed render does not end with two
consecutive newline bytes (a License-terminated render does, and then the
output still ends with one). -/
theorem display_trims_exactly_one_newline (s : Scope) :
    (Scope.toString s).data =
      (if (Scope.render s).data.getLast? = some '\n' then (Scope.render s).data.dropLast
       else (Scope.render s).data) ∧
    (¬ (Scope.render s).data.dropLast.getLast? = some '\n' →
      ¬ (Scope.toString s).data.getLast? = some '\n') := by
  rw [toString_eq]
  by_cases h : (Scope.render s).data.getLast? = some '\n'
  · constructor
    · simp [trimNl, h]
    · intro h2 hc
      simp only [trimNl, h, if_true, eq_self_iff_true, ite_true] at hc
      exact h2 hc
  · constructor
    · simp [trimNl, h]
    · intro _h2 hc
      simp only [trimNl] at hc
      rw [if_neg h] at hc
      exact h hc

/-- C2, witness: the amended statement at a scope with a single one-line
comment, whose render ends with exactly one newline: the converted output
does not end with a line break. -/
theorem display_trims_exactly_one_newline_witness :
    ¬ (Scope.toString commentOnlyScope).data.getLast? = some '\n' :=
  (display_trims_exactly_one_newline commentOnlyScope).2
    (by simp only [Scope.render, commentOnlyScope, Scope.fmtP, itemsP, Item.fmtP]; decide)

/-- C3: with exactly the imports (`std::io`, `Read`), (`std::io`, `Write`),
(`std::fmt`, `Display`) registered in that order and no visibility
qualifiers, the rendered import block consists of exactly the two lines
`use std::io::{Read, Write};` and `use std::fmt::Display;`, path groups in
first-registration order of the path and type names in first-registration
order within the path. -/
theorem import_grouping_example :
    Scope.renderImports importExampleScope =
      "use std::io::\x7bRead, Write\x7d;\nuse std::fmt::Display;\n" ∧
    rlines (Scope.renderImports importExampleScope) =
      ["use std::io::\x7bRead, Write\x7d;", "use std::fmt::Display;"] := by
  constructor <;> decide

/-- C4: calling `import` a second time with identical arguments returns the
same scope and the same underlying record (no new record is created), and
in a well-formed import table the registered pair — keyed by the segment of
the type argument before the first `::` — is mentioned by exactly one
emitted `use` statement. -/
theorem import_idempotent (s : Scope) (p ty : String) :
    ((s.import p ty).1.import p ty = ((s.import p ty).1, (s.import p ty).2)) ∧
    (Scope.importsWF s → cnt (p, importKey ty) (emittedPairs (s.import p ty).1) = 1) := by
  constructor
  · exact importKeyed_twice s p (importKey ty)
  · intro hwf
    obtain ⟨inner, hO, hI⟩ := importKeyed_mem s p (importKey ty)
    exact emitted_cnt (importKeyed_wf hwf p (importKey ty)) hO hI

/-- C4, witness: importing (`a`, `B`) into a fresh scope yields exactly one
emitted occurrence of the pair. -/
theorem import_idempotent_witness :
    cnt ("a", importKey "B") (emittedPairs (Scope.new.import "a" "B").1) = 1 :=
  (import_idempotent Scope.new "a" "B").2
    ⟨by simp [Scope.new, Scope.importsL], by simp [Scope.new, Scope.importsL]⟩

/-- C5: pushing a module whose name collides with an existing direct-child
module is the fatal precondition path (modelled by `none`, the `assert!`
panic), and `get_or_new_module` called twice with the same name returns the
same scope and the same module both times, never creating a duplicate. -/
theorem module_uniqueness (s : Scope) (name : String) (sc : Scope) :
    ((Scope.get_module s name).isSome = true →
      Scope.push_module s (Module.mk name sc) = none) ∧
    (∀ s1 m1, Scope.get_or_new_module s name = some (s1, m1) →
      Scope.get_or_new_module s1 name = some (s1, m1)) := by
  constructor
  · intro h
    simp [Scope.push_module, Module.name, h]
  · intro s1 m1 h
    cases hg : Scope.get_module s name with
    | some m =>
      rw [Scope.get_or_new_module, hg] at h
      simp only [Option.some.injEq, Prod.mk.injEq] at h
      obtain ⟨h3, h4⟩ := h
      subst h3
      subst h4
      rw [Scope.get_or_new_module, hg]
    | none =>
      rw [Scope.get_or_new_module, hg] at h
      rw [Scope.new_module, Scope.push_module] at h
      have hname : (Module.new name).name = name := rfl
      rw [hname, hg] at h
      simp only [Option.isSome_none, Bool.false_eq_true, if_false, ite_false] at h
      rw [items_pushItem, List.getLast?_concat] at h
      simp only [Option.some.injEq, Prod.mk.injEq] at h
      obtain ⟨h3, h4⟩ := h
      subst h3
      subst h4
      have hgm : Scope.get_module (s.pushItem (Item.moduleI (Module.new name))) name =
          some (Module.new name) := by
        rw [Scope.get_module, items_pushItem, List.findSome?_append]
        rw [Scope.get_module] at hg
        rw [hg]
        simp [List.findSome?_cons, Module.new, Module.name]
      rw [Scope.get_or_new_module, hgm]

/-- C5, witness: pushing a second module named `foo` is rejected, and the
get-or-create operation on a fresh scope is stable on its second call. -/
theorem module_uniqueness_witness :
    Scope.push_module moduleFooScope (Module.mk "foo" Scope.new) = none ∧
    Scope.get_or_new_module moduleFooScope "foo" =
      some (moduleFooScope, Module.new "foo") := by
  constructor
  · exact (module_uniqueness moduleFooScope "foo" Scope.new).1 (by rfl)
  · exact (module_uniqueness Scope.new "foo" Scope.new).2 moduleFooScope
      (Module.new "foo") (by rfl)

/-- C6: a full render is the pre-item part followed by the declarations in
insertion order joined by single newline writes: exactly one blank-line
separator between consecutive declarations, none before the first, none
after the last, regardless of declaration kind. -/
theorem declaration_separation (s : Scope) :
    Scope.render s = Scope.renderHead s ++ sepNl (s.items.map Item.render) := by
  rw [render_shape, Scope.renderHead]
  simp [Scope.renderImports, String.append_assoc]

/-- C7: rendering an MIT license replaces exactly the placeholder line with
one `// Copyright (c) <entry>` line per registered entry in registration
order, copies all other template lines verbatim as line comments, and a
BSD license (whose stored template text is empty) renders only the header
and SPDX lines with no body. -/
theorem license_copyright_substitution (title : String) (cs : List String) :
    License.render ⟨cs, title, LicenseType.mit⟩ =
      (if title = "" then "" else "// " ++ title ++ "\n" ++ "//\n") ++
      "// MIT License\n" ++ "// \n" ++
      strCat (cs.map (fun c => "// Copyright (c) " ++ c ++ "\n")) ++
      "// \n" ++
      "// Permission is hereby granted, free of charge, to any person obtaining a copy\n" ++
      "// of this software and associated documentation files (the \"Software\"), to deal\n" ++
      "// in the Software without restriction, including without limitation the rights\n" ++
      "// to use, copy, modify, merge, publish, distribute, sublicense, and/or sell\n" ++
      "// copies of the Software, and to permit persons to whom the Software is\n" ++
      "// furnished to do so, subject to the following conditions:\n" ++
      "// \n" ++
      "// The above copyright notice and this permission notice shall be included in all\n" ++
      "// copies or substantial portions of the Software.\n" ++
      "// \n" ++
      "// THE SOFTWARE IS PROVIDED \"AS IS\", WITHOUT WARRANTY OF ANY KIND, EXPRESS OR\n" ++
      "// IMPLIED, INCLUDING BUT NOT LIMITED TO THE WARRANTIES OF MERCHANTABILITY,\n" ++
      "// FITNESS FOR A PARTICULAR PURPOSE AND NONINFRINGEMENT. IN NO EVENT SHALL THE\n" ++
      "// AUTHORS OR COPYRIGHT HOLDERS BE LIABLE FOR ANY CLAIM, DAMAGES OR OTHER\n" ++
      "// LIABILITY, WHETHER IN AN ACTION OF CONTRACT, TORT OR OTHERWISE, ARISING FROM,\n" ++
      "// OUT OF OR IN CONNECTION WITH THE SOFTWARE OR THE USE OR OTHER DEALINGS IN THE\n" ++
      "// SOFTWARE.\n" ++
      "//\n" ++ "// SPDX-License-Identifier: MIT\n" ++ "//\n\n" ∧
    License.render ⟨cs, title, LicenseType.bsd⟩ =
      (if title = "" then "" else "// " ++ title ++ "\n" ++ "//\n") ++
      "//\n" ++ "// SPDX-License-Identifier: BSD\n" ++ "//\n\n" := by
  constructor
  · simp only [License.render, License.fmtP]
    rw [mitMap]
    simp only [WProg.flat, flat_seqList, flat_seqList_wr, List.map_cons, List.map_nil,
      strCat, spdxOf, String.append_assoc, String.append_empty]
    by_cases ht : title = "" <;>
      simp [ht, WProg.flat, Function.comp_def, String.append_assoc, String.empty_append]
  · simp only [License.render, License.fmtP]
    rw [show (rlines (licenseText LicenseType.bsd)).map (licLineProg cs) = [] from rfl]
    simp only [WProg.flat, seqList, List.foldr_nil, spdxOf, String.append_assoc,
      String.append_empty]
    by_cases ht : title = "" <;>
      simp [ht, WProg.flat, String.append_assoc, String.empty_append]

/-- C8: the rendered output of a scope consists of the license and
documentation parts, the grouped import block, one blank line exactly when
the import table is nonempty, then the items; the table is nonempty exactly
when at least one import is registered, and an empty table emits no import
block at all. -/
theorem import_block_blank_line (s : Scope)
    (hin : ∀ pi ∈ s.importsL, pi.2 ≠ []) :
    (Scope.render s =
      (licenseProgOf s.license).flat ++ (docsProgOf s.docs).flat ++
        Scope.renderImports s ++ (if s.importsL.isEmpty then "" else "\n") ++
        sepNl (s.items.map Item.render)) ∧
    (s.importsL.isEmpty = false ↔ registeredPairs s ≠ []) ∧
    (s.importsL.isEmpty = true → Scope.renderImports s = "") := by
  refine ⟨render_shape s, ⟨?_, ?_⟩, ?_⟩
  · intro hne
    cases him : s.importsL with
    | nil => rw [him] at hne; simp at hne
    | cons pi rest =>
      have hpi2 : pi.2 ≠ [] := hin pi (him ▸ List.mem_cons_self _ _)
      simp only [registeredPairs, him, List.flatMap_cons]
      intro hcontra
      rcases List.append_eq_nil.mp hcontra with ⟨h1, _⟩
      exact hpi2 (List.map_eq_nil_iff.mp h1)
  · intro hne
    cases him : s.importsL with
    | nil =>
      rw [registeredPairs, him] at hne
      simp at hne
    | cons pi rest => simp [him]
  · intro hemp
    have him : s.importsL = [] := by simpa using hemp
    simp [Scope.renderImports, him, vissOf, fmtImportsP, seqList, WProg.flat]

/-- C8, witness: the blank-line statement at a scope holding one
registered entry in its table. -/
theorem import_block_blank_line_witness :
    (Scope.render importOneScope =
      (licenseProgOf importOneScope.license).flat ++ (docsProgOf importOneScope.docs).flat ++
        Scope.renderImports importOneScope ++
        (if importOneScope.importsL.isEmpty then "" else "\n") ++
        sepNl (importOneScope.items.map Item.render)) ∧
    (importOneScope.importsL.isEmpty = false ↔ registeredPairs importOneScope ≠ []) ∧
    (importOneScope.importsL.isEmpty = true → Scope.renderImports importOneScope = "") :=
  import_block_blank_line importOneScope (by decide)

/-- C9: rendering the same fully built scope through two fresh infallible
sinks produces byte-identical output and succeeds — a render pass is a
deterministic function of the scope and does not mutate it. -/
theorem render_roundtrip_stable (s : Scope) (f1 f2 : Fmt)
    (h1 : f1.failAt = none) (h2 : f2.failAt = none)
    (o1 : f1.out = "") (o2 : f2.out = "") :
    (Scope.fmtRun s f1).1.out = (Scope.fmtRun s f2).1.out ∧
      (Scope.fmtRun s f1).2 = true := by
  have e1 := run_flat (Scope.fmtP s) f1 h1
  have e2 := run_flat (Scope.fmtP s) f2 h2
  simp [Scope.fmtRun, e1, e2, o1, o2]

/-- C9, witness: two fresh renders of a concrete scope agree byte for byte
and succeed. -/
theorem render_roundtrip_stable_witness :
    (Scope.fmtRun commentOnlyScope ⟨"", none, false⟩).1.out =
      (Scope.fmtRun commentOnlyScope ⟨"", none, false⟩).1.out ∧
    (Scope.fmtRun commentOnlyScope ⟨"", none, false⟩).2 = true :=
  render_roundtrip_stable commentOnlyScope ⟨"", none, false⟩ ⟨"", none, false⟩
    rfl rfl rfl rfl

/-- C10: `import` keys the record by the segment of the type argument
before the first `::` occurrence (the whole argument when it contains
none); in particular importing `A::B` and then `A::C` under the same path
touches the same record — the second call changes nothing and returns the
record stored under the key `A`. -/
theorem import_key_split (s : Scope) (p : String) :
    (∀ ty, Scope.import s p ty = Scope.importKeyed s p (importKey ty)) ∧
    importKey "A::B" = "A" ∧ importKey "A::C" = "A" ∧ importKey "A" = "A" ∧
    ((s.import p "A::B").1.import p "A::C" =
      ((s.import p "A::B").1, (s.import p "A::B").2)) ∧
    getA ((getA (s.import p "A::B").1.importsL p).getD []) "A" =
      some (s.import p "A::B").2 := by
  refine ⟨fun ty => rfl, by decide, by decide, by decide, ?_, ?_⟩
  · have e1 : Scope.import s p "A::B" = s.importKeyed p "A" := rfl
    have e2 : Scope.import (s.importKeyed p "A").1 p "A::C" =
        (s.importKeyed p "A").1.importKeyed p "A" := rfl
    rw [e1, e2]
    exact importKeyed_twice s p "A"
  · have e1 : Scope.import s p "A::B" = s.importKeyed p "A" := rfl
    rw [e1]
    exact importKeyed_lookup s p "A"

end Codegen
